import Mathlib

/-!
# beam / util / signals : `WaitForQuit`

A shallow embedding of `src/github.com/ebay/beam/util/signals/s.go`:

```go
func WaitForQuit() {
	c := make(chan os.Signal, 2)
	signal.Notify(c, os.Interrupt, syscall.SIGTERM)
	<-c
}
```

The three statements of the body are three atomic steps of the calling
goroutine.  They run against a process state made of the channels allocated
so far and the registration table of package `os/signal`
(`handlers.m : map[chan<- os.Signal]*handler`).  The operating system is the
environment: at any moment it may deliver a signal, which `os/signal` fans out
to every registered channel whose handler wants it, with a non-blocking send
(`select { case c <- sig: default: }`).

A signal no channel is registered for gets the default action of the Go
runtime: for SIGHUP, SIGINT, SIGTERM, SIGQUIT and the fault signals the program
ends, and SIGKILL ends it whoever is registered.  A delivery is a signal
reaching the runtime of the process; a process that is stopped and continued
(SIGSTOP, job control) shows as a pause between two events.

Outside the model: other goroutines that would change the registration table
concurrently, and a program started with SIGHUP or SIGINT ignored.
-/

namespace Signals

/-! ## Signals -/

/-- A signal number, as `syscall.Signal`. -/
abbrev Signal := Nat

/-- The interrupt signal, `syscall.SIGINT`. -/
def SIGINT : Signal := 2

/-- The termination request, `syscall.SIGTERM`. -/
def SIGTERM : Signal := 15

/-- The portable name `os.Interrupt`, which is `syscall.SIGINT`. -/
def Interrupt : Signal := SIGINT

/-- Number of signals `os/signal` knows about (`numSig`). -/
def numSig : Nat := 65

/-- The hangup signal, `syscall.SIGHUP`. -/
def SIGHUP : Signal := 1

/-- The quit signal, `syscall.SIGQUIT`. -/
def SIGQUIT : Signal := 3

/-- The kill signal, `syscall.SIGKILL`, which no program can catch. -/
def SIGKILL : Signal := 9

/-- The signals whose default action in a Go program ends the program, SIGKILL
apart (package `os/signal`, default behaviour; numbers as on Linux): SIGHUP,
SIGINT and SIGTERM make it exit; SIGQUIT, SIGILL, SIGTRAP, SIGABRT, SIGSTKFLT
and SIGSYS make it exit with a stack dump; SIGBUS, SIGFPE and SIGSEGV sent from
outside make it crash.  Every other signal is caught and nothing is done. -/
def exitsByDefault : List Signal :=
  [SIGHUP, SIGINT, SIGTERM, SIGQUIT, 4, 5, 6, 16, 31, 7, 8, 11]

/-! ## Channels and the process state -/

/-- A buffered channel of signals: its capacity and the pending values, oldest first. -/
structure Chan where
  cap : Nat
  buf : List Signal
  deriving DecidableEq, Repr

/-- A channel reference: the position of the channel among those allocated. -/
abbrev ChanId := Nat

/-- The process: allocated channels, the registration table of `os/signal` (each
entry a channel with the signals its handler wants), and whether a signal has
ended the process. -/
structure Proc where
  chans : List Chan
  handlers : List (ChanId × List Signal)
  exited : Bool
  deriving DecidableEq, Repr

/-- `make(chan os.Signal, cap)`: allocate a fresh, empty channel. -/
def makeChan (cap : Nat) (p : Proc) : ChanId × Proc :=
  (p.chans.length, { p with chans := p.chans ++ [⟨cap, []⟩] })

/-- `handler.set` guarded by `handler.want`, as in the `add` closure of `signal.Notify`. -/
def addSig (mask : List Signal) (n : Signal) : List Signal :=
  if n ∈ mask then mask else mask ++ [n]

/-- The signals a call `signal.Notify(c, sigs...)` adds: all of them when none is listed. -/
def notifyList (sigs : List Signal) : List Signal :=
  if sigs.isEmpty then List.range numSig else sigs

/-- Update of the table entry of `c`, when there is one. -/
def updateHandler (c : ChanId) (sigs : List Signal) :
    List (ChanId × List Signal) → List (ChanId × List Signal)
  | [] => []
  | h :: hs =>
    if h.1 = c then (h.1, sigs.foldl addSig h.2) :: hs
    else h :: updateHandler c sigs hs

/-- `signal.Notify(c, sigs...)`: the handler of `c` is created when the table has
none, and the listed signals are added to it. -/
def notify (c : ChanId) (sigs : List Signal) (p : Proc) : Proc :=
  if p.handlers.any (fun h => h.1 == c) then
    { p with handlers := updateHandler c (notifyList sigs) p.handlers }
  else
    { p with handlers := p.handlers ++ [(c, (notifyList sigs).foldl addSig [])] }

/-- The non-blocking send `select { case c <- sig: default: }` on a channel
nobody is receiving from: the value is buffered when there is room, dropped otherwise. -/
def trySend (s : Signal) (ch : Chan) : Chan :=
  if ch.buf.length < ch.cap then { ch with buf := ch.buf ++ [s] } else ch

/-- The non-blocking send on the channel at a position. -/
def sendAt (s : Signal) : ChanId → List Chan → List Chan
  | _, [] => []
  | 0, ch :: rest => trySend s ch :: rest
  | c + 1, ch :: rest => ch :: sendAt s c rest

/-- `signal.process(sig)`: every registered channel whose handler wants the
signal gets a non-blocking send. -/
def process (s : Signal) (p : Proc) : Proc :=
  { p with chans :=
      p.handlers.foldl (fun chans h => if s ∈ h.2 then sendAt s h.1 chans else chans) p.chans }

/-- Removal of the oldest pending value of the channel at a position. -/
def popAt : ChanId → List Chan → List Chan
  | _, [] => []
  | 0, ch :: rest => { ch with buf := ch.buf.tail } :: rest
  | c + 1, ch :: rest => ch :: popAt c rest

/-- The pending values of a channel, oldest first. -/
def pending (c : ChanId) (p : Proc) : List Signal :=
  match p.chans[c]? with
  | some ch => ch.buf
  | none => []

/-- The receive `<-c`: the oldest pending value and the state without it, or
`none` when nothing is pending and the receiver blocks. -/
def recv (c : ChanId) (p : Proc) : Option (Signal × Proc) :=
  match pending c p with
  | [] => none
  | s :: _ => some (s, { p with chans := popAt c p.chans })

/-! ## The call -/

/-- Where a call of `WaitForQuit` stands: before `make` (line 28), before
`signal.Notify` (line 29), before the receive (line 30), returned, or gone
with its process, which a signal ended before the call could return. -/
inductive PC where
  | atMake
  | atNotify (c : ChanId)
  | atRecv (c : ChanId)
  | returned
  | exited
  deriving DecidableEq, Repr

/-- What the end of the process makes of a call: one that had returned has
returned, any other is gone. -/
def PC.afterExit : PC → PC
  | .returned => .returned
  | _ => .exited

/-- A call in progress together with the process it runs in. -/
structure Config where
  proc : Proc
  pc : PC
  deriving DecidableEq, Repr

/-- The signals `WaitForQuit` registers for. -/
def quitSignals : List Signal := [Interrupt, SIGTERM]

/-- One step of the calling goroutine, `none` when it cannot move: its process
has ended, it is blocked on the receive, or the call has already returned. -/
def step (k : Config) : Option Config :=
  if k.proc.exited then none
  else
    match k.pc with
    | .atMake => some ⟨(makeChan 2 k.proc).2, .atNotify (makeChan 2 k.proc).1⟩
    | .atNotify c => some ⟨notify c quitSignals k.proc, .atRecv c⟩
    | .atRecv c =>
      match recv c k.proc with
      | some r => some ⟨r.2, .returned⟩
      | none => none
    | .returned => none
    | .exited => none

/-- Whether some entry of the registration table wants the signal. -/
def anyWants (s : Signal) (p : Proc) : Bool :=
  p.handlers.any (fun h => decide (s ∈ h.2))

/-- Whether the delivery of a signal ends the process: SIGKILL always, and a
signal that ends the program by default when no channel is registered for it. -/
def terminates (s : Signal) (p : Proc) : Bool :=
  s == SIGKILL || (decide (s ∈ exitsByDefault) && !anyWants s p)

/-- What can happen next: the operating system delivers a signal, or the
calling goroutine is scheduled. -/
inductive Event where
  | deliver (s : Signal)
  | sched
  deriving DecidableEq, Repr

/-- The effect of one event.  A signal delivered to a live process either ends
it or is fanned out by `os/signal`; nothing reaches a process that has ended.
A goroutine that cannot move stays where it is. -/
def exec (k : Config) : Event → Config
  | .deliver s =>
    if k.proc.exited then k
    else if terminates s k.proc then ⟨{ k.proc with exited := true }, k.pc.afterExit⟩
    else { k with proc := process s k.proc }
  | .sched => (step k).getD k

/-- The effect of a sequence of events. -/
def run (k : Config) (es : List Event) : Config :=
  es.foldl exec k

/-- A fresh call of `WaitForQuit` in a process. -/
def call (p : Proc) : Config := ⟨p, .atMake⟩

/-- How many times the call returns along a sequence of events. -/
def returnsDuring (k : Config) : List Event → Nat
  | [] => 0
  | e :: es =>
    (if k.pc ≠ .returned ∧ (exec k e).pc = .returned then 1 else 0)
      + returnsDuring (exec k e) es

/-- The table is that of a Go map over live channels: every key is an
allocated channel and no key occurs twice. -/
def WF (p : Proc) : Prop :=
  (∀ h ∈ p.handlers, h.1 < p.chans.length) ∧ (p.handlers.map Prod.fst).Nodup

instance (p : Proc) : Decidable (WF p) := by
  unfold WF; infer_instance

/-- The signals the table entry of a channel wants; none without an entry. -/
def wanted (c : ChanId) (p : Proc) : List Signal :=
  match p.handlers.find? (fun h => h.1 == c) with
  | some h => h.2
  | none => []

/-- The empty process, live: no channel, no registration. -/
def Proc.empty : Proc := ⟨[], [], false⟩

/-- The call's channel is registered: the table is the initial one plus the entry
of the fresh channel for the quit signals, and that channel has capacity two and
holds at most two quit signals. -/
def Reg (p0 p : Proc) : Prop :=
  p.handlers = p0.handlers ++ [(p0.chans.length, quitSignals)] ∧
  p.chans.length = p0.chans.length + 1 ∧
  ∃ ch, p.chans[p0.chans.length]? = some ch ∧ ch.cap = 2 ∧ ch.buf.length ≤ 2 ∧
    ∀ x ∈ ch.buf, x ∈ quitSignals

/-- What holds of a call started in process `p0`, wherever it stands. -/
def Inv (p0 : Proc) (k : Config) : Prop :=
  WF p0 ∧ WF k.proc ∧
  match k.pc with
  | .atMake => k.proc.handlers = p0.handlers ∧ k.proc.chans.length = p0.chans.length
  | .atNotify c =>
    k.proc.exited = false ∧
    c = p0.chans.length ∧ k.proc.handlers = p0.handlers ∧
    k.proc.chans.length = c + 1 ∧ k.proc.chans[c]? = some ⟨2, []⟩
  | .atRecv c => k.proc.exited = false ∧ c = p0.chans.length ∧ Reg p0 k.proc
  | .returned => Reg p0 k.proc
  | .exited => k.proc.exited = true

/-- The call started in `p0` has registered its channel, whatever became of it since. -/
def Past (p0 : Proc) (k : Config) : Prop :=
  WF k.proc ∧ Reg p0 k.proc ∧
  (k.pc = .atRecv p0.chans.length ∨ k.pc = .returned ∨ k.pc = .exited)

/-- The signals wanted by the entry of a channel in a table. -/
def lookup (hs : List (ChanId × List Signal)) (c : ChanId) : List Signal :=
  match hs.find? (fun h => h.1 == c) with
  | some h => h.2
  | none => []

/-- The fan-out of `signal.process` over a table. -/
def fanout (s : Signal) (hs : List (ChanId × List Signal)) (chans : List Chan) : List Chan :=
  hs.foldl (fun chans h => if s ∈ h.2 then sendAt s h.1 chans else chans) chans

/-- The call has returned, or stands before the receive with a value pending. -/
def Ready (k : Config) : Prop :=
  k.pc = .returned ∨ ∃ c, k.pc = .atRecv c ∧ pending c k.proc ≠ []

/-- The deliveries of a list of signals, in order. -/
def deliveries (ds : List Signal) : List Event :=
  ds.map Event.deliver

/-- Two deliveries of SIGINT right after the registration of a first call,
which then receives one of them. -/
def rapidTwice : List Event :=
  [.sched, .sched, .deliver SIGINT, .deliver SIGINT, .sched]

/-! ## Channel positions -/

theorem length_sendAt (s : Signal) : ∀ (c : ChanId) (chans : List Chan),
    (sendAt s c chans).length = chans.length
  | 0, [] => rfl
  | _ + 1, [] => rfl
  | 0, _ :: _ => rfl
  | c + 1, _ :: rest => by simp [sendAt, length_sendAt s c rest]

theorem getElem?_sendAt (s : Signal) : ∀ (c : ChanId) (chans : List Chan) (i : Nat),
    (sendAt s c chans)[i]? = if i = c then (chans[i]?).map (trySend s) else chans[i]?
  | _, [], i => by simp [sendAt]
  | 0, ch :: rest, i => by
    cases i with
    | zero => simp [sendAt]
    | succ j => simp [sendAt]
  | c + 1, ch :: rest, i => by
    cases i with
    | zero => simp [sendAt]
    | succ j => simp [sendAt, getElem?_sendAt s c rest j]

theorem length_popAt : ∀ (c : ChanId) (chans : List Chan),
    (popAt c chans).length = chans.length
  | 0, [] => rfl
  | _ + 1, [] => rfl
  | 0, _ :: _ => rfl
  | c + 1, _ :: rest => by simp [popAt, length_popAt c rest]

theorem getElem?_popAt : ∀ (c : ChanId) (chans : List Chan) (i : Nat),
    (popAt c chans)[i]? =
      if i = c then (chans[i]?).map (fun ch => { ch with buf := ch.buf.tail }) else chans[i]?
  | _, [], i => by simp [popAt]
  | 0, ch :: rest, i => by
    cases i with
    | zero => simp [popAt]
    | succ j => simp [popAt]
  | c + 1, ch :: rest, i => by
    cases i with
    | zero => simp [popAt]
    | succ j => simp [popAt, getElem?_popAt c rest j]

/-! ## The registration table -/

theorem wanted_eq (c : ChanId) (p : Proc) : wanted c p = lookup p.handlers c := rfl

theorem lookup_of_not_mem (hs : List (ChanId × List Signal)) (c : ChanId)
    (h : c ∉ hs.map Prod.fst) : lookup hs c = [] := by
  have : hs.find? (fun h => h.1 == c) = none := by
    rw [List.find?_eq_none]
    intro x hx hxc
    apply h
    simp only [beq_iff_eq] at hxc
    exact List.mem_map.mpr ⟨x, hx, hxc⟩
  simp [lookup, this]

theorem lookup_cons (h : ChanId × List Signal) (hs : List (ChanId × List Signal))
    (c : ChanId) : lookup (h :: hs) c = if h.1 = c then h.2 else lookup hs c := by
  by_cases hc : h.1 = c
  · simp [lookup, List.find?_cons, hc]
  · simp [lookup, List.find?_cons, hc]

theorem lookup_append_fresh (hs : List (ChanId × List Signal)) (c : ChanId)
    (q : List Signal) (h : c ∉ hs.map Prod.fst) : lookup (hs ++ [(c, q)]) c = q := by
  induction hs with
  | nil => simp [lookup]
  | cons x xs ih =>
    have hx : x.1 ≠ c := by
      intro e; apply h; simp [e.symm]
    have hxs : c ∉ xs.map Prod.fst := by
      intro e; apply h; simp only [List.map_cons, List.mem_cons]; exact Or.inr e
    rw [List.cons_append, lookup_cons, if_neg hx, ih hxs]

theorem lookup_append_other (hs : List (ChanId × List Signal)) (c i : ChanId)
    (q : List Signal) (h : i ≠ c) : lookup (hs ++ [(c, q)]) i = lookup hs i := by
  induction hs with
  | nil => simp [lookup, List.find?_cons, Ne.symm h]
  | cons x xs ih => rw [List.cons_append, lookup_cons, lookup_cons, ih]

theorem process_chans (s : Signal) (p : Proc) :
    (process s p).chans = fanout s p.handlers p.chans := rfl

theorem length_fanout (s : Signal) : ∀ (hs : List (ChanId × List Signal)) (chans : List Chan),
    (fanout s hs chans).length = chans.length
  | [], _ => rfl
  | h :: hs, chans => by
    show (fanout s hs _).length = _
    rw [length_fanout s hs]
    by_cases hs' : s ∈ h.2
    · simp [hs', length_sendAt]
    · simp [hs']

theorem getElem?_fanout (s : Signal) : ∀ (hs : List (ChanId × List Signal))
    (chans : List Chan) (i : Nat), (hs.map Prod.fst).Nodup →
    (fanout s hs chans)[i]? =
      (chans[i]?).map (fun ch => if s ∈ lookup hs i then trySend s ch else ch)
  | [], chans, i, _ => by simp [fanout, lookup]
  | h :: hs, chans, i, hnd => by
    have hnd' : (hs.map Prod.fst).Nodup := (List.nodup_cons.mp hnd).2
    have hfresh : h.1 ∉ hs.map Prod.fst := (List.nodup_cons.mp hnd).1
    show (fanout s hs _)[i]? = _
    rw [getElem?_fanout s hs _ i hnd', lookup_cons]
    by_cases hi : h.1 = i
    · subst hi
      rw [lookup_of_not_mem hs h.1 hfresh]
      by_cases hs' : s ∈ h.2
      · simp [hs', getElem?_sendAt, Function.comp_def]
      · simp [hs']
    · have hi' : i ≠ h.1 := fun e => hi e.symm
      by_cases hs' : s ∈ h.2
      · simp [hs', hi, hi', getElem?_sendAt]
      · simp [hs', hi]

/-! ## Delivery -/

theorem process_handlers (s : Signal) (p : Proc) : (process s p).handlers = p.handlers := rfl

theorem length_process (s : Signal) (p : Proc) :
    (process s p).chans.length = p.chans.length :=
  length_fanout s p.handlers p.chans

theorem getElem?_process (s : Signal) (p : Proc) (i : Nat) (hp : WF p) :
    (process s p).chans[i]? =
      (p.chans[i]?).map (fun ch => if s ∈ wanted i p then trySend s ch else ch) :=
  getElem?_fanout s p.handlers p.chans i hp.2

theorem WF_process (s : Signal) (p : Proc) (hp : WF p) : WF (process s p) := by
  refine ⟨?_, hp.2⟩
  intro h hh
  rw [length_process]
  exact hp.1 h hh

theorem fresh_of_WF (p0 : Proc) (h0 : WF p0) : p0.chans.length ∉ p0.handlers.map Prod.fst := by
  intro hmem
  obtain ⟨x, hx, hxc⟩ := List.mem_map.mp hmem
  have := h0.1 x hx
  rw [hxc] at this
  exact Nat.lt_irrefl _ this

theorem wanted_of_reg (p0 p : Proc) (h0 : WF p0) (hr : Reg p0 p) :
    wanted p0.chans.length p = quitSignals := by
  rw [wanted_eq, hr.1]
  exact lookup_append_fresh _ _ _ (fresh_of_WF p0 h0)

theorem trySend_cap (s : Signal) (ch : Chan) : (trySend s ch).cap = ch.cap := by
  unfold trySend; split <;> rfl

theorem trySend_buf (s : Signal) (ch : Chan) :
    (trySend s ch).buf = if ch.buf.length < ch.cap then ch.buf ++ [s] else ch.buf := by
  unfold trySend; split <;> rfl

theorem reg_process (s : Signal) (p0 p : Proc) (h0 : WF p0) (hp : WF p) (hr : Reg p0 p) :
    Reg p0 (process s p) := by
  have hw := wanted_of_reg p0 p h0 hr
  obtain ⟨hh, hl, ch, hch, hcap, hlen, hall⟩ := hr
  refine ⟨hh, by rw [length_process]; exact hl, ?_⟩
  rw [getElem?_process s p _ hp, hch, hw]
  by_cases hs : s ∈ quitSignals
  · refine ⟨trySend s ch, by simp [hs], by rw [trySend_cap]; exact hcap, ?_, ?_⟩
    · rw [trySend_buf]
      split
      · simp only [List.length_append, List.length_singleton]; omega
      · exact hlen
    · intro x hx
      rw [trySend_buf] at hx
      split at hx
      · rcases List.mem_append.mp hx with h | h
        · exact hall x h
        · simp only [List.mem_singleton] at h; rw [h]; exact hs
      · exact hall x hx
  · exact ⟨ch, by simp [hs], hcap, hlen, hall⟩

/-! ## The invariant -/

theorem quitSignals_mask : (notifyList quitSignals).foldl addSig [] = quitSignals := by
  decide

theorem any_key_false (hs : List (ChanId × List Signal)) (c : ChanId)
    (h : c ∉ hs.map Prod.fst) : hs.any (fun h => h.1 == c) = false := by
  rw [List.any_eq_false]
  intro x hx hxc
  apply h
  simp only [beq_iff_eq] at hxc
  exact List.mem_map.mpr ⟨x, hx, hxc⟩

theorem notify_fresh (p : Proc) (c : ChanId) (h : c ∉ p.handlers.map Prod.fst) :
    notify c quitSignals p = { p with handlers := p.handlers ++ [(c, quitSignals)] } := by
  unfold notify
  rw [any_key_false _ _ h, quitSignals_mask]
  simp

theorem exec_sched (k : Config) : exec k .sched = (step k).getD k := rfl

theorem exec_deliver_dead (k : Config) (s : Signal) (h : k.proc.exited = true) :
    exec k (.deliver s) = k := by
  simp [exec, h]

theorem exec_deliver_term (k : Config) (s : Signal) (ha : k.proc.exited = false)
    (ht : terminates s k.proc = true) :
    exec k (.deliver s) = ⟨{ k.proc with exited := true }, k.pc.afterExit⟩ := by
  simp [exec, ha, ht]

theorem exec_deliver_live (k : Config) (s : Signal) (ha : k.proc.exited = false)
    (ht : terminates s k.proc = false) :
    exec k (.deliver s) = { k with proc := process s k.proc } := by
  simp [exec, ha, ht]

theorem step_dead (k : Config) (h : k.proc.exited = true) : step k = none := by
  simp [step, h]

theorem terminates_of_reg (p0 p : Proc) (hr : Reg p0 p) (s : Signal) (hs : s ∈ quitSignals) :
    terminates s p = false := by
  have hk : (s == SIGKILL) = false := by
    have : s = Interrupt ∨ s = SIGTERM := by simpa [quitSignals] using hs
    rcases this with h | h <;> subst h <;> decide
  have hw : anyWants s p = true := by
    unfold anyWants
    rw [List.any_eq_true]
    refine ⟨(p0.chans.length, quitSignals), ?_, by simpa using hs⟩
    rw [hr.1]
    simp
  simp [terminates, hk, hw]

theorem inv_call (p0 : Proc) (h0 : WF p0) : Inv p0 (call p0) :=
  ⟨h0, h0, rfl, rfl⟩

theorem inv_deliver (p0 : Proc) (k : Config) (s : Signal) (h : Inv p0 k) :
    Inv p0 (exec k (.deliver s)) := by
  by_cases hd : k.proc.exited = true
  · rw [exec_deliver_dead k s hd]; exact h
  have ha : k.proc.exited = false := by simpa using hd
  by_cases ht : terminates s k.proc = true
  · rw [exec_deliver_term k s ha ht]
    obtain ⟨p, pc⟩ := k
    obtain ⟨h0, hp, hk⟩ := h
    refine ⟨h0, hp, ?_⟩
    cases pc with
    | atMake => exact rfl
    | atNotify c => exact rfl
    | atRecv c => exact rfl
    | returned => exact hk
    | exited => exact rfl
  have ht' : terminates s k.proc = false := by simpa using ht
  rw [exec_deliver_live k s ha ht']
  obtain ⟨p, pc⟩ := k
  have ha' : p.exited = false := ha
  obtain ⟨h0, hp, hk⟩ := h
  refine ⟨h0, WF_process s p hp, ?_⟩
  cases pc with
  | atMake =>
    exact ⟨hk.1, by show (process s p).chans.length = _; rw [length_process]; exact hk.2⟩
  | atNotify c =>
    obtain ⟨_, hc, hh, hl, hch⟩ := hk
    refine ⟨ha', hc, hh,
      by show (process s p).chans.length = _; rw [length_process]; exact hl, ?_⟩
    show (process s p).chans[c]? = _
    have hw : wanted c p = [] := by
      rw [wanted_eq]
      apply lookup_of_not_mem
      show c ∉ p.handlers.map Prod.fst
      rw [hc]
      have : p.handlers = p0.handlers := hh
      rw [this]
      exact fresh_of_WF p0 h0
    rw [getElem?_process s p c hp, hw]
    have : p.chans[c]? = some ⟨2, []⟩ := hch
    simp [this]
  | atRecv c => exact ⟨ha', hk.2.1, reg_process s p0 p h0 hp hk.2.2⟩
  | returned => exact reg_process s p0 p h0 hp hk
  | exited =>
    have : p.exited = true := hk
    rw [this] at ha'
    exact absurd ha' (by simp)

theorem pending_of_get (c : ChanId) (p : Proc) (ch : Chan) (h : p.chans[c]? = some ch) :
    pending c p = ch.buf := by
  simp [pending, h]

theorem recv_none_iff (c : ChanId) (p : Proc) : recv c p = none ↔ pending c p = [] := by
  unfold recv
  cases pending c p <;> simp

theorem recv_of_cons (c : ChanId) (p : Proc) (s : Signal) (rest : List Signal)
    (h : pending c p = s :: rest) :
    recv c p = some (s, { p with chans := popAt c p.chans }) := by
  unfold recv
  rw [h]

theorem step_atRecv_blocked (p : Proc) (c : ChanId) (h : pending c p = []) :
    step ⟨p, .atRecv c⟩ = none := by
  simp [step, (recv_none_iff c p).mpr h]

theorem step_atRecv_ready (p : Proc) (c : ChanId) (ha : p.exited = false)
    (h : pending c p ≠ []) :
    step ⟨p, .atRecv c⟩ = some ⟨{ p with chans := popAt c p.chans }, .returned⟩ := by
  cases hb : pending c p with
  | nil => exact absurd hb h
  | cons s rest => simp [step, ha, recv_of_cons c p s rest hb]

theorem reg_pop (p0 p : Proc) (hr : Reg p0 p) :
    Reg p0 { p with chans := popAt p0.chans.length p.chans } := by
  obtain ⟨hh, hl, ch, hch, hcap, hlen, hall⟩ := hr
  refine ⟨hh, by show (popAt _ p.chans).length = _; rw [length_popAt]; exact hl,
    { ch with buf := ch.buf.tail }, ?_, hcap, ?_, ?_⟩
  · show (popAt _ p.chans)[_]? = _
    rw [getElem?_popAt, if_pos rfl, hch]
    rfl
  · show ch.buf.tail.length ≤ 2
    rw [List.length_tail]; omega
  · intro x hx
    exact hall x (List.mem_of_mem_tail hx)

theorem WF_pop (p : Proc) (c : ChanId) (hp : WF p) : WF { p with chans := popAt c p.chans } := by
  refine ⟨?_, hp.2⟩
  intro h hh
  show h.1 < (popAt c p.chans).length
  rw [length_popAt]
  exact hp.1 h hh

theorem exec_sched_atNotify (p0 p : Proc) (c : ChanId) (hinv : Inv p0 ⟨p, .atNotify c⟩) :
    exec ⟨p, .atNotify c⟩ .sched =
      ⟨{ p with handlers := p.handlers ++ [(c, quitSignals)] }, .atRecv c⟩ := by
  obtain ⟨h0, _, ha, hc, hh, _, _⟩ := hinv
  have ha' : p.exited = false := ha
  have hc' : c = p0.chans.length := hc
  have hh' : p.handlers = p0.handlers := hh
  have hfresh : c ∉ p.handlers.map Prod.fst := by
    rw [hh', hc']; exact fresh_of_WF p0 h0
  rw [exec_sched]
  simp [step, ha', notify_fresh p c hfresh]

theorem inv_sched (p0 : Proc) (k : Config) (h : Inv p0 k) : Inv p0 (exec k .sched) := by
  by_cases hd : k.proc.exited = true
  · rw [exec_sched, step_dead k hd]; exact h
  have ha : k.proc.exited = false := by simpa using hd
  obtain ⟨p, pc⟩ := k
  have ha' : p.exited = false := ha
  cases pc with
  | atMake =>
    obtain ⟨h0, hp, hh, hl⟩ := h
    have hh' : p.handlers = p0.handlers := hh
    have hl' : p.chans.length = p0.chans.length := hl
    have hstep : exec ⟨p, .atMake⟩ .sched =
        ⟨{ p with chans := p.chans ++ [(⟨2, []⟩ : Chan)] }, .atNotify p.chans.length⟩ := by
      rw [exec_sched]
      simp [step, ha', makeChan]
    rw [hstep]
    refine ⟨h0, ⟨?_, hp.2⟩, ?_⟩
    · intro x hx
      show x.1 < (p.chans ++ [(⟨2, []⟩ : Chan)]).length
      have := hp.1 x hx
      simp only [List.length_append, List.length_singleton]
      exact Nat.lt_succ_of_lt this
    · refine ⟨ha', hl', hh', ?_, ?_⟩
      · show (p.chans ++ [(⟨2, []⟩ : Chan)]).length = p.chans.length + 1
        simp
      · show (p.chans ++ [(⟨2, []⟩ : Chan)])[p.chans.length]? = some ⟨2, []⟩
        simp
  | atNotify c =>
    rw [exec_sched_atNotify p0 p c h]
    obtain ⟨h0, hp, _, hc, hh, hl, hch⟩ := h
    have hh' : p.handlers = p0.handlers := hh
    have hl' : p.chans.length = c + 1 := hl
    have hch' : p.chans[c]? = some ⟨2, []⟩ := hch
    have hfresh : c ∉ p.handlers.map Prod.fst := by
      rw [hh', hc]; exact fresh_of_WF p0 h0
    refine ⟨h0, ⟨?_, ?_⟩, ha', hc, ?_, ?_, ?_⟩
    · intro x hx
      show x.1 < p.chans.length
      rcases List.mem_append.mp hx with hx | hx
      · exact hp.1 x hx
      · simp only [List.mem_singleton] at hx
        rw [hx, hl']; exact Nat.lt_succ_self c
    · show ((p.handlers ++ [(c, quitSignals)]).map Prod.fst).Nodup
      rw [List.map_append, List.nodup_append]
      refine ⟨hp.2, by simp, ?_⟩
      intro a ha1 hb
      simp only [List.map_cons, List.map_nil, List.mem_singleton] at hb
      exact hfresh (hb ▸ ha1)
    · show p.handlers ++ [(c, quitSignals)] = p0.handlers ++ [(p0.chans.length, quitSignals)]
      rw [hh', hc]
    · show p.chans.length = p0.chans.length + 1
      rw [hl', hc]
    · refine ⟨⟨2, []⟩, ?_, rfl, by simp, by simp⟩
      show p.chans[p0.chans.length]? = _
      rw [← hc]; exact hch'
  | atRecv c =>
    obtain ⟨h0, hp, _, hc, hr⟩ := h
    by_cases hb : pending c p = []
    · have : exec ⟨p, .atRecv c⟩ .sched = ⟨p, .atRecv c⟩ := by
        rw [exec_sched, step_atRecv_blocked p c hb]; rfl
      rw [this]
      exact ⟨h0, hp, ha', hc, hr⟩
    · have : exec ⟨p, .atRecv c⟩ .sched =
          ⟨{ p with chans := popAt c p.chans }, .returned⟩ := by
        rw [exec_sched, step_atRecv_ready p c ha' hb]; rfl
      rw [this]
      refine ⟨h0, WF_pop p c hp, ?_⟩
      show Reg p0 { p with chans := popAt c p.chans }
      rw [hc]
      exact reg_pop p0 p hr
  | returned =>
    have : exec ⟨p, .returned⟩ .sched = ⟨p, .returned⟩ := by
      rw [exec_sched]; simp [step]
    rw [this]; exact h
  | exited =>
    have : exec ⟨p, .exited⟩ .sched = ⟨p, .exited⟩ := by
      rw [exec_sched]; simp [step]
    rw [this]; exact h

theorem inv_exec (p0 : Proc) (k : Config) (e : Event) (h : Inv p0 k) : Inv p0 (exec k e) := by
  cases e with
  | deliver s => exact inv_deliver p0 k s h
  | sched => exact inv_sched p0 k h

theorem inv_run (p0 : Proc) (es : List Event) : ∀ k, Inv p0 k → Inv p0 (run k es) := by
  induction es with
  | nil => intro k h; exact h
  | cons e es ih => intro k h; exact ih (exec k e) (inv_exec p0 k e h)

theorem inv_reach (p0 : Proc) (h0 : WF p0) (es : List Event) : Inv p0 (run (call p0) es) :=
  inv_run p0 es (call p0) (inv_call p0 h0)

theorem run_append (k : Config) (es fs : List Event) :
    run k (es ++ fs) = run (run k es) fs := by
  simp [run, List.foldl_append]

theorem run_cons (k : Config) (e : Event) (es : List Event) :
    run k (e :: es) = run (exec k e) es := rfl

/-! ## The end of the process -/

theorem exec_dead (k : Config) (e : Event) (h : k.proc.exited = true) : exec k e = k := by
  cases e with
  | deliver s => exact exec_deliver_dead k s h
  | sched => rw [exec_sched, step_dead k h]; rfl

theorem run_dead (es : List Event) : ∀ k : Config, k.proc.exited = true → run k es = k := by
  induction es with
  | nil => intro k _; rfl
  | cons e es ih =>
    intro k h
    rw [run_cons, exec_dead k e h]
    exact ih k h

theorem alive_of_run (k : Config) (es : List Event) (h : (run k es).proc.exited = false) :
    k.proc.exited = false := by
  by_contra hd
  have hd' : k.proc.exited = true := by simpa using hd
  rw [run_dead es k hd', hd'] at h
  exact absurd h (by simp)

/-! ## After registration -/

theorem mem_quitSignals (s : Signal) : s ∈ quitSignals ↔ s = Interrupt ∨ s = SIGTERM := by
  simp [quitSignals]

theorem chan_deliver (p0 p : Proc) (h0 : WF p0) (hp : WF p) (hr : Reg p0 p) (s : Signal) :
    (process s p).chans[p0.chans.length]? =
      (p.chans[p0.chans.length]?).map
        (fun ch => if s ∈ quitSignals then trySend s ch else ch) := by
  rw [getElem?_process s p _ hp, wanted_of_reg p0 p h0 hr]

theorem pending_deliver (p0 p : Proc) (h0 : WF p0) (hp : WF p) (hr : Reg p0 p) (s : Signal) :
    pending p0.chans.length (process s p) =
      if s ∈ quitSignals then (pending p0.chans.length p ++ [s]).take 2
      else pending p0.chans.length p := by
  have hd := chan_deliver p0 p h0 hp hr s
  obtain ⟨_, _, ch, hch, hcap, hlen, _⟩ := hr
  rw [hch] at hd
  rw [pending_of_get _ p ch hch]
  by_cases hs : s ∈ quitSignals
  · simp only [hs, if_true, Option.map_some'] at hd ⊢
    rw [pending_of_get _ _ _ hd, trySend_buf, hcap]
    by_cases hl : ch.buf.length < 2
    · rw [if_pos hl, List.take_of_length_le]
      simp only [List.length_append, List.length_singleton]; omega
    · rw [if_neg hl]
      have h2 : ch.buf.length = 2 := by omega
      rw [List.take_append_of_le_length (by omega), List.take_of_length_le (by omega)]
  · simp only [hs, if_false, Option.map_some'] at hd ⊢
    rw [pending_of_get _ _ _ hd]

theorem pending_deliver_ne (p0 p : Proc) (h0 : WF p0) (hp : WF p) (hr : Reg p0 p) (s : Signal)
    (h : pending p0.chans.length p ≠ []) : pending p0.chans.length (process s p) ≠ [] := by
  rw [pending_deliver p0 p h0 hp hr s]
  split
  · cases hb : pending p0.chans.length p with
    | nil => exact absurd hb h
    | cons x xs => simp
  · exact h

theorem pending_deliver_quit_ne (p0 p : Proc) (h0 : WF p0) (hp : WF p) (hr : Reg p0 p)
    (s : Signal) (hs : s ∈ quitSignals) : pending p0.chans.length (process s p) ≠ [] := by
  rw [pending_deliver p0 p h0 hp hr s, if_pos hs]
  cases pending p0.chans.length p with
  | nil => simp
  | cons x xs => simp

/-! ## Returning -/

theorem exec_deliver_alive (k : Config) (s : Signal)
    (h : (exec k (.deliver s)).proc.exited = false) :
    k.proc.exited = false ∧ terminates s k.proc = false ∧
      exec k (.deliver s) = { k with proc := process s k.proc } := by
  by_cases hd : k.proc.exited = true
  · rw [exec_deliver_dead k s hd, hd] at h
    exact absurd h (by simp)
  have ha : k.proc.exited = false := by simpa using hd
  by_cases ht : terminates s k.proc = true
  · rw [exec_deliver_term k s ha ht] at h
    exact absurd h (by simp)
  have ht' : terminates s k.proc = false := by simpa using ht
  exact ⟨ha, ht', exec_deliver_live k s ha ht'⟩

theorem exec_deliver_pc (k : Config) (s : Signal) :
    (exec k (.deliver s)).pc = k.pc ∨ (exec k (.deliver s)).pc = k.pc.afterExit := by
  by_cases hd : k.proc.exited = true
  · rw [exec_deliver_dead k s hd]; exact Or.inl rfl
  have ha : k.proc.exited = false := by simpa using hd
  by_cases ht : terminates s k.proc = true
  · rw [exec_deliver_term k s ha ht]; exact Or.inr rfl
  have ht' : terminates s k.proc = false := by simpa using ht
  rw [exec_deliver_live k s ha ht']; exact Or.inl rfl

theorem exec_deliver_chans (k : Config) (s : Signal) :
    (exec k (.deliver s)).proc.chans = k.proc.chans ∨
      (exec k (.deliver s)).proc.chans = (process s k.proc).chans := by
  by_cases hd : k.proc.exited = true
  · rw [exec_deliver_dead k s hd]; exact Or.inl rfl
  have ha : k.proc.exited = false := by simpa using hd
  by_cases ht : terminates s k.proc = true
  · rw [exec_deliver_term k s ha ht]; exact Or.inl rfl
  have ht' : terminates s k.proc = false := by simpa using ht
  rw [exec_deliver_live k s ha ht']; exact Or.inr rfl

theorem exec_deliver_handlers (k : Config) (s : Signal) :
    (exec k (.deliver s)).proc.handlers = k.proc.handlers := by
  by_cases hd : k.proc.exited = true
  · rw [exec_deliver_dead k s hd]
  have ha : k.proc.exited = false := by simpa using hd
  by_cases ht : terminates s k.proc = true
  · rw [exec_deliver_term k s ha ht]
  have ht' : terminates s k.proc = false := by simpa using ht
  rw [exec_deliver_live k s ha ht']; rfl

theorem exec_returned (k : Config) (e : Event) (h : k.pc = .returned) :
    (exec k e).pc = .returned := by
  cases e with
  | deliver s =>
    rcases exec_deliver_pc k s with h1 | h1
    · rw [h1]; exact h
    · rw [h1, h]; rfl
  | sched =>
    obtain ⟨p, pc⟩ := k
    have hpc : pc = .returned := h
    subst hpc
    rw [exec_sched]
    by_cases hd : p.exited = true
    · simp [step, hd]
    · simp [step, hd]

theorem run_returned (es : List Event) : ∀ k : Config, k.pc = .returned →
    (run k es).pc = .returned := by
  induction es with
  | nil => intro k h; exact h
  | cons e es ih => intro k h; exact ih (exec k e) (exec_returned k e h)

theorem returnsDuring_eq (es : List Event) : ∀ k : Config,
    returnsDuring k es = if k.pc ≠ .returned ∧ (run k es).pc = .returned then 1 else 0 := by
  induction es with
  | nil =>
    intro k
    have : ¬ (k.pc ≠ .returned ∧ (run k []).pc = .returned) := fun h => h.1 h.2
    rw [if_neg this]; rfl
  | cons e es ih =>
    intro k
    show (if k.pc ≠ .returned ∧ (exec k e).pc = .returned then 1 else 0)
      + returnsDuring (exec k e) es = _
    rw [ih (exec k e), run_cons]
    by_cases hk : k.pc = .returned
    · have h1 := exec_returned k e hk
      simp [hk, h1]
    · by_cases h1 : (exec k e).pc = .returned
      · have h2 := run_returned es (exec k e) h1
        simp [hk, h1, h2]
      · simp [hk, h1]

theorem returnsDuring_le_one (k : Config) (es : List Event) : returnsDuring k es ≤ 1 := by
  rw [returnsDuring_eq]
  split <;> omega

theorem step_ready (k : Config) (c : ChanId) (hpc : k.pc = .atRecv c)
    (ha : k.proc.exited = false) (hne : pending c k.proc ≠ []) :
    step k = some ⟨{ k.proc with chans := popAt c k.proc.chans }, .returned⟩ := by
  obtain ⟨p, pc⟩ := k
  have hpc' : pc = .atRecv c := hpc
  subst hpc'
  exact step_atRecv_ready p c ha hne

theorem step_blocked (k : Config) (c : ChanId) (hpc : k.pc = .atRecv c)
    (hb : pending c k.proc = []) : step k = none := by
  obtain ⟨p, pc⟩ := k
  have hpc' : pc = .atRecv c := hpc
  subst hpc'
  exact step_atRecv_blocked p c hb

theorem inv_atRecv (p0 : Proc) (k : Config) (c : ChanId) (hinv : Inv p0 k)
    (hpc : k.pc = .atRecv c) :
    WF p0 ∧ WF k.proc ∧ k.proc.exited = false ∧ c = p0.chans.length ∧ Reg p0 k.proc := by
  obtain ⟨h0, hp, hk⟩ := hinv
  rw [hpc] at hk
  exact ⟨h0, hp, hk.1, hk.2.1, hk.2.2⟩

theorem ready_run (p0 : Proc) (c : ChanId) (es : List Event) : ∀ k : Config, Inv p0 k →
    k.pc = .atRecv c → pending c k.proc ≠ [] → Event.sched ∈ es →
    (run k es).proc.exited = false → (run k es).pc = .returned := by
  induction es with
  | nil => intro k _ _ _ hm; simp at hm
  | cons e es ih =>
    intro k hinv hpc hne hm halive
    rw [run_cons] at halive ⊢
    obtain ⟨h0, hp, ha, hc, hr⟩ := inv_atRecv p0 k c hinv hpc
    cases e with
    | deliver s =>
      have hm' : Event.sched ∈ es := by
        rcases List.mem_cons.mp hm with h | h
        · cases h
        · exact h
      obtain ⟨_, _, hex⟩ := exec_deliver_alive k s (alive_of_run _ es halive)
      apply ih _ (inv_deliver p0 k s hinv) (by rw [hex]; exact hpc) _ hm' halive
      rw [hex]
      show pending c (process s k.proc) ≠ []
      rw [hc]
      apply pending_deliver_ne p0 k.proc h0 hp hr s
      rw [← hc]; exact hne
    | sched =>
      apply run_returned
      rw [exec_sched, step_ready k c hpc ha hne]
      rfl

/-! ## No wake-up without a quit signal -/

theorem ready_origin (p0 : Proc) (k : Config) (e : Event) (hinv : Inv p0 k)
    (h : Ready (exec k e)) :
    Ready k ∨ ∃ c s, e = .deliver s ∧ s ∈ quitSignals ∧ k.pc = .atRecv c := by
  cases e with
  | deliver s =>
    by_cases hd : k.proc.exited = true
    · rw [exec_deliver_dead k s hd] at h; exact Or.inl h
    have ha : k.proc.exited = false := by simpa using hd
    by_cases ht : terminates s k.proc = true
    · rw [exec_deliver_term k s ha ht] at h
      rcases h with hret | ⟨c, hpc, _⟩
      · have hret' : k.pc.afterExit = .returned := hret
        left; left
        cases hk : k.pc <;> rw [hk] at hret' <;> first | rfl | exact absurd hret' (by simp [PC.afterExit])
      · have hpc' : k.pc.afterExit = .atRecv c := hpc
        cases hk : k.pc <;> rw [hk] at hpc' <;> exact absurd hpc' (by simp [PC.afterExit])
    have ht' : terminates s k.proc = false := by simpa using ht
    rw [exec_deliver_live k s ha ht'] at h
    rcases h with hret | ⟨c, hpc, hne⟩
    · exact Or.inl (Or.inl hret)
    · have hpc' : k.pc = .atRecv c := hpc
      by_cases hs : s ∈ quitSignals
      · exact Or.inr ⟨c, s, rfl, hs, hpc'⟩
      · left; right
        refine ⟨c, hpc', ?_⟩
        obtain ⟨h0, hp, _, hc, hr⟩ := inv_atRecv p0 k c hinv hpc'
        have hne' : pending c (process s k.proc) ≠ [] := hne
        rw [hc, pending_deliver p0 k.proc h0 hp hr s, if_neg hs] at hne'
        rw [hc]; exact hne'
  | sched =>
    by_cases hd : k.proc.exited = true
    · rw [exec_sched, step_dead k hd] at h; exact Or.inl h
    have ha : k.proc.exited = false := by simpa using hd
    obtain ⟨p, pc⟩ := k
    have ha' : p.exited = false := ha
    cases pc with
    | atMake =>
      rcases h with hret | ⟨c, hpc, _⟩
      · exact absurd hret (by simp [exec_sched, step, ha'])
      · exact absurd hpc (by simp [exec_sched, step, ha'])
    | atNotify c =>
      rw [exec_sched_atNotify p0 p c hinv] at h
      rcases h with hret | ⟨c', hpc, hne⟩
      · exact absurd hret (by simp)
      · have hcc : c = c' := by
          have : PC.atRecv c = PC.atRecv c' := hpc
          exact PC.atRecv.inj this
        subst hcc
        obtain ⟨_, _, _, _, _, _, hch⟩ := hinv
        have hch' : p.chans[c]? = some ⟨2, []⟩ := hch
        have : pending c p = [] := pending_of_get c p _ hch'
        exact absurd this hne
    | atRecv c =>
      by_cases hb : pending c p = []
      · rw [exec_sched, step_atRecv_blocked p c hb] at h
        exact Or.inl h
      · exact Or.inl (Or.inr ⟨c, rfl, hb⟩)
    | returned => exact Or.inl (Or.inl rfl)
    | exited =>
      rw [exec_sched] at h
      have hs : step ⟨p, .exited⟩ = none := by simp [step]
      rw [hs] at h
      exact Or.inl h

theorem ready_cause (p0 : Proc) (h0 : WF p0) (es : List Event) :
    Ready (run (call p0) es) →
    ∃ pre s post c, es = pre ++ Event.deliver s :: post ∧ s ∈ quitSignals ∧
      (run (call p0) pre).pc = .atRecv c := by
  induction es using List.reverseRecOn with
  | nil =>
    intro h
    rcases h with hret | ⟨c, hpc, _⟩
    · exact absurd hret (by simp [run, call])
    · exact absurd hpc (by simp [run, call])
  | append_singleton l a ih =>
    intro h
    rw [run_append] at h
    rcases ready_origin p0 (run (call p0) l) a (inv_reach p0 h0 l) h with hk | ⟨c, s, ha, hs, hpc⟩
    · obtain ⟨pre, s, post, c, hl, hs, hpc⟩ := ih hk
      refine ⟨pre, s, post ++ [a], c, ?_, hs, hpc⟩
      rw [hl]; simp
    · exact ⟨l, s, [], c, by rw [ha], hs, hpc⟩

theorem returned_cause (p0 : Proc) (h0 : WF p0) (es : List Event)
    (hret : (run (call p0) es).pc = .returned) :
    ∃ pre s post c, es = pre ++ Event.deliver s :: post ∧
      (s = Interrupt ∨ s = SIGTERM) ∧ (run (call p0) pre).pc = .atRecv c := by
  obtain ⟨pre, s, post, c, hes, hs, hpc⟩ := ready_cause p0 h0 es (Or.inl hret)
  exact ⟨pre, s, post, c, hes, (mem_quitSignals s).mp hs, hpc⟩

theorem not_returned_of_no_quit (p0 : Proc) (h0 : WF p0) (es : List Event)
    (hno : ∀ s, s = Interrupt ∨ s = SIGTERM → Event.deliver s ∉ es) :
    (run (call p0) es).pc ≠ .returned := by
  intro hret
  obtain ⟨pre, s, post, c, hes, hs, _⟩ := returned_cause p0 h0 es hret
  apply hno s hs
  rw [hes]
  simp

/-! ## Single calls -/

theorem reached_atRecv (p0 : Proc) (h0 : WF p0) (es : List Event) (c : ChanId)
    (hreg : (run (call p0) es).pc = .atRecv c) :
    c = p0.chans.length ∧ Reg p0 (run (call p0) es).proc ∧ WF (run (call p0) es).proc ∧
      (run (call p0) es).proc.exited = false := by
  obtain ⟨_, hp, ha, hc, hr⟩ := inv_atRecv p0 _ c (inv_reach p0 h0 es) hreg
  exact ⟨hc, hr, hp, ha⟩

theorem reached_returned (p0 : Proc) (h0 : WF p0) (es : List Event)
    (hret : (run (call p0) es).pc = .returned) :
    Reg p0 (run (call p0) es).proc ∧ WF (run (call p0) es).proc := by
  have hinv := inv_reach p0 h0 es
  obtain ⟨_, hp, hk⟩ := hinv
  rw [hret] at hk
  exact ⟨hk, hp⟩

theorem exec_deliver_quit (p0 : Proc) (k : Config) (c : ChanId) (s : Signal)
    (hinv : Inv p0 k) (hpc : k.pc = .atRecv c) (hs : s ∈ quitSignals) :
    exec k (.deliver s) = { k with proc := process s k.proc } := by
  obtain ⟨_, _, ha, _, hr⟩ := inv_atRecv p0 k c hinv hpc
  exact exec_deliver_live k s ha (terminates_of_reg p0 k.proc hr s hs)

theorem returns_once (p0 : Proc) (h0 : WF p0) (pre post : List Event) (c : ChanId)
    (s : Signal) (hreg : (run (call p0) pre).pc = .atRecv c) (hs : s ∈ quitSignals)
    (hsch : Event.sched ∈ post)
    (halive : (run (call p0) (pre ++ Event.deliver s :: post)).proc.exited = false) :
    (run (call p0) (pre ++ Event.deliver s :: post)).pc = .returned ∧
    returnsDuring (call p0) (pre ++ Event.deliver s :: post) = 1 := by
  obtain ⟨hc, hr, hp, _⟩ := reached_atRecv p0 h0 pre c hreg
  have hex := exec_deliver_quit p0 _ c s (inv_reach p0 h0 pre) hreg hs
  have hret : (run (call p0) (pre ++ Event.deliver s :: post)).pc = .returned := by
    rw [run_append, run_cons] at halive ⊢
    apply ready_run p0 c post _ (inv_deliver p0 _ s (inv_reach p0 h0 pre)) _ _ hsch halive
    · rw [hex]; exact hreg
    · rw [hex]
      show pending c (process s (run (call p0) pre).proc) ≠ []
      rw [hc]
      exact pending_deliver_quit_ne p0 _ h0 hp hr s hs
  refine ⟨hret, ?_⟩
  rw [returnsDuring_eq, if_pos ⟨by simp [call], hret⟩]

theorem take_take_append {α : Type} (n : Nat) : ∀ (l r : List α),
    (l.take n ++ r).take n = (l ++ r).take n := by
  induction n with
  | zero => intro l r; simp
  | succ n ih =>
    intro l r
    cases l with
    | nil => simp
    | cons x xs => simp [ih xs r]

theorem deliveries_cons (s : Signal) (ds : List Signal) :
    deliveries (s :: ds) = Event.deliver s :: deliveries ds := rfl

theorem run_deliveries (p0 : Proc) (c : ChanId) (ds : List Signal) : ∀ k : Config,
    Inv p0 k → k.pc = .atRecv c → (∀ s ∈ ds, s ∈ quitSignals) →
    (run k (deliveries ds)).pc = .atRecv c ∧
    pending c (run k (deliveries ds)).proc = (pending c k.proc ++ ds).take 2 := by
  induction ds with
  | nil =>
    intro k hinv hpc _
    refine ⟨hpc, ?_⟩
    obtain ⟨_, _, _, hc, _, _, ch, hch, _, hlen, _⟩ := inv_atRecv p0 k c hinv hpc
    show pending c k.proc = _
    rw [hc, pending_of_get _ _ ch hch]
    simp only [List.append_nil]
    rw [List.take_of_length_le hlen]
  | cons s ds ih =>
    intro k hinv hpc hq
    have hs : s ∈ quitSignals := hq s (List.mem_cons_self s ds)
    have hex := exec_deliver_quit p0 k c s hinv hpc hs
    rw [deliveries_cons, run_cons]
    obtain ⟨hpc', hpend⟩ := ih (exec k (.deliver s)) (inv_deliver p0 k s hinv)
      (by rw [hex]; exact hpc) (fun x hx => hq x (List.mem_cons_of_mem s hx))
    refine ⟨hpc', ?_⟩
    rw [hpend, hex]
    obtain ⟨h0, hp, _, hc, hr⟩ := inv_atRecv p0 k c hinv hpc
    show (pending c (process s k.proc) ++ ds).take 2 = _
    rw [hc, pending_deliver p0 k.proc h0 hp hr s, if_pos hs, take_take_append]
    simp

theorem registered_fresh (p0 : Proc) (h0 : WF p0) (es : List Event) (c : ChanId)
    (hpc : (run (call p0) es).pc = .atNotify c) :
    (run (call p0) (es ++ [.sched])).pc = .atRecv c ∧
    (run (call p0) (es ++ [.sched])).proc.chans[c]? = some ⟨2, []⟩ := by
  have hinv := inv_reach p0 h0 es
  rw [run_append]
  generalize run (call p0) es = k at hpc hinv
  obtain ⟨p, pc⟩ := k
  have hpc' : pc = .atNotify c := hpc
  subst hpc'
  have hone : run ⟨p, .atNotify c⟩ [.sched] = exec ⟨p, .atNotify c⟩ .sched := rfl
  rw [hone, exec_sched_atNotify p0 p c hinv]
  obtain ⟨_, _, _, _, _, _, hch⟩ := hinv
  exact ⟨rfl, hch⟩

theorem registered_then_deliveries (p0 : Proc) (h0 : WF p0) (es : List Event) (c : ChanId)
    (hpc : (run (call p0) es).pc = .atNotify c) (ds : List Signal)
    (hq : ∀ s ∈ ds, s ∈ quitSignals) :
    (run (call p0) (es ++ Event.sched :: deliveries ds)).pc = .atRecv c ∧
    pending c (run (call p0) (es ++ Event.sched :: deliveries ds)).proc = ds.take 2 := by
  obtain ⟨hreg, hch⟩ := registered_fresh p0 h0 es c hpc
  have hsplit : es ++ Event.sched :: deliveries ds = (es ++ [.sched]) ++ deliveries ds := by
    simp
  rw [hsplit, run_append]
  obtain ⟨h1, h2⟩ := run_deliveries p0 c ds _ (inv_reach p0 h0 (es ++ [.sched])) hreg hq
  refine ⟨h1, ?_⟩
  rw [h2, pending_of_get c _ _ hch]
  rfl

/-! ## Once registered -/

theorem past_exec (p0 : Proc) (k : Config) (e : Event) (h0 : WF p0) (h : Past p0 k) :
    Past p0 (exec k e) := by
  by_cases hd : k.proc.exited = true
  · rw [exec_dead k e hd]; exact h
  have ha : k.proc.exited = false := by simpa using hd
  obtain ⟨hp, hr, hpc⟩ := h
  cases e with
  | deliver s =>
    by_cases ht : terminates s k.proc = true
    · rw [exec_deliver_term k s ha ht]
      refine ⟨hp, hr, ?_⟩
      show k.pc.afterExit = _ ∨ k.pc.afterExit = _ ∨ k.pc.afterExit = _
      rcases hpc with h1 | h1 | h1 <;> rw [h1] <;> simp [PC.afterExit]
    · have ht' : terminates s k.proc = false := by simpa using ht
      rw [exec_deliver_live k s ha ht']
      exact ⟨WF_process s _ hp, reg_process s p0 _ h0 hp hr, hpc⟩
  | sched =>
    rcases hpc with h1 | h1 | h1
    · by_cases hb : pending p0.chans.length k.proc = []
      · rw [exec_sched, step_blocked k _ h1 hb]
        exact ⟨hp, hr, Or.inl h1⟩
      · rw [exec_sched, step_ready k _ h1 ha hb]
        exact ⟨WF_pop _ _ hp, reg_pop p0 _ hr, Or.inr (Or.inl rfl)⟩
    · have hs : step k = none := by
        obtain ⟨p, pc⟩ := k
        have : pc = .returned := h1
        subst this
        simp [step]
      rw [exec_sched, hs]
      exact ⟨hp, hr, Or.inr (Or.inl h1)⟩
    · have hs : step k = none := by
        obtain ⟨p, pc⟩ := k
        have : pc = .exited := h1
        subst this
        simp [step]
      rw [exec_sched, hs]
      exact ⟨hp, hr, Or.inr (Or.inr h1)⟩

theorem past_run (p0 : Proc) (h0 : WF p0) (es : List Event) : ∀ k, Past p0 k →
    Past p0 (run k es) := by
  induction es with
  | nil => intro k h; exact h
  | cons e es ih => intro k h; exact ih (exec k e) (past_exec p0 k e h0 h)

theorem reg_after (p0 : Proc) (h0 : WF p0) (pre fs : List Event) (c : ChanId)
    (hreg : (run (call p0) pre).pc = .atRecv c) :
    c = p0.chans.length ∧ Reg p0 (run (call p0) (pre ++ fs)).proc ∧
      WF (run (call p0) (pre ++ fs)).proc := by
  obtain ⟨hc, hr, hp, _⟩ := reached_atRecv p0 h0 pre c hreg
  refine ⟨hc, ?_⟩
  rw [run_append]
  obtain ⟨hp', hr', _⟩ := past_run p0 h0 fs _ ⟨hp, hr, Or.inl (hc ▸ hreg)⟩
  exact ⟨hr', hp'⟩

theorem trySend_full (s : Signal) (ch : Chan) (h : ch.buf.length = ch.cap) :
    trySend s ch = ch := by
  unfold trySend
  rw [if_neg (by omega)]

theorem second_call (p0 p1 : Proc) (h0 : WF p0) (es1 pre2 : List Event) (c1 c2 : ChanId)
    (pre1 : List Event) (hreg1 : (run (call p0) pre1).pc = .atRecv c1)
    (hret1 : (run (call p0) es1).pc = .returned) (hp1 : p1 = (run (call p0) es1).proc)
    (hreg2 : (run (call p1) pre2).pc = .atRecv c2) :
    WF p1 ∧ c2 ≠ c1 ∧ wanted c1 (run (call p1) pre2).proc = quitSignals ∧
      wanted c2 (run (call p1) pre2).proc = quitSignals := by
  obtain ⟨hr1, hw1⟩ := reached_returned p0 h0 es1 hret1
  rw [← hp1] at hr1 hw1
  obtain ⟨hc1, _, _, _⟩ := reached_atRecv p0 h0 pre1 c1 hreg1
  obtain ⟨hc2, hr2, _, _⟩ := reached_atRecv p1 hw1 pre2 c2 hreg2
  have hne : c2 ≠ c1 := by
    rw [hc1, hc2, hr1.2.1]
    exact Nat.succ_ne_self _
  refine ⟨hw1, hne, ?_, ?_⟩
  · rw [wanted_eq, hr2.1, lookup_append_other _ _ _ _ (by rw [← hc2]; exact hne.symm),
      ← wanted_eq, hc1]
    exact wanted_of_reg p0 p1 h0 hr1
  · rw [hc2]
    exact wanted_of_reg p1 _ hw1 hr2

theorem pending_after_quit (p0 : Proc) (h0 : WF p0) (pre : List Event) (c : ChanId)
    (s : Signal) (hreg : (run (call p0) pre).pc = .atRecv c) (hq : s ∈ quitSignals) :
    pending c (run (call p0) (pre ++ [Event.deliver s])).proc ≠ [] ∧
    (∀ x ∈ pending c (run (call p0) (pre ++ [Event.deliver s])).proc,
      x = Interrupt ∨ x = SIGTERM) := by
  obtain ⟨hc, hr, _⟩ := reg_after p0 h0 pre [Event.deliver s] c hreg
  obtain ⟨_, hr', hp', _⟩ := reached_atRecv p0 h0 pre c hreg
  constructor
  · rw [run_append]
    show pending c (exec (run (call p0) pre) (.deliver s)).proc ≠ []
    rw [exec_deliver_quit p0 _ c s (inv_reach p0 h0 pre) hreg hq]
    show pending c (process s (run (call p0) pre).proc) ≠ []
    rw [hc]
    exact pending_deliver_quit_ne p0 _ h0 hp' hr' s hq
  · obtain ⟨_, _, ch, hch, _, _, hall⟩ := hr
    rw [← hc] at hch
    intro x hx
    rw [pending_of_get c _ ch hch] at hx
    exact (mem_quitSignals x).mp (hall x hx)

theorem two_calls (p0 p1 : Proc) (h0 : WF p0) (pre1 post1 pre2 post2 : List Event)
    (c1 c2 : ChanId) (s1 s2 : Signal)
    (hreg1 : (run (call p0) pre1).pc = .atRecv c1) (hs1 : s1 ∈ quitSignals)
    (hsch1 : Event.sched ∈ post1)
    (hp1 : p1 = (run (call p0) (pre1 ++ Event.deliver s1 :: post1)).proc)
    (hreg2 : (run (call p1) pre2).pc = .atRecv c2) (hs2 : s2 ∈ quitSignals)
    (hsch2 : Event.sched ∈ post2)
    (halive : (run (call p1) (pre2 ++ Event.deliver s2 :: post2)).proc.exited = false) :
    WF p1 ∧
    ((run (call p0) (pre1 ++ Event.deliver s1 :: post1)).pc = .returned ∧
      returnsDuring (call p0) (pre1 ++ Event.deliver s1 :: post1) = 1) ∧
    ((run (call p1) (pre2 ++ Event.deliver s2 :: post2)).pc = .returned ∧
      returnsDuring (call p1) (pre2 ++ Event.deliver s2 :: post2) = 1) ∧
    c2 ≠ c1 ∧ wanted c1 (run (call p1) pre2).proc = quitSignals ∧
    wanted c2 (run (call p1) pre2).proc = quitSignals := by
  have hw1 : WF p1 := by
    rw [hp1]; exact (inv_reach p0 h0 _).2.1
  have ha1 : p1.exited = false :=
    alive_of_run (call p1) pre2 (reached_atRecv p1 hw1 pre2 c2 hreg2).2.2.2
  have hfirst := returns_once p0 h0 pre1 post1 c1 s1 hreg1 hs1 hsch1 (by rw [← hp1]; exact ha1)
  obtain ⟨_, hne, hwant1, hwant2⟩ :=
    second_call p0 p1 h0 _ pre2 c1 c2 pre1 hreg1 hfirst.1 hp1 hreg2
  exact ⟨hw1, hfirst, returns_once p1 hw1 pre2 post2 c2 s2 hreg2 hs2 hsch2 halive,
    hne, hwant1, hwant2⟩

/-! ## The claims -/

/-- **C1** No spurious wake-up.  Whatever the process the call starts in and
whatever the sequence of signal deliveries and scheduling steps, the call has
returned only if the sequence contains the delivery of SIGINT (`os.Interrupt`)
or SIGTERM at a point where the call had already registered its channel; and
along a sequence without such a delivery (in particular without any delivery)
the call has not returned. -/
theorem waitForQuit_no_spurious_wakeup (p0 : Proc) (h0 : WF p0) (es : List Event) :
    ((run (call p0) es).pc = .returned →
      ∃ pre s post c, es = pre ++ Event.deliver s :: post ∧
        (s = Interrupt ∨ s = SIGTERM) ∧ (run (call p0) pre).pc = .atRecv c) ∧
    ((∀ s, s = Interrupt ∨ s = SIGTERM → Event.deliver s ∉ es) →
      (run (call p0) es).pc ≠ .returned) :=
  ⟨returned_cause p0 h0 es, not_returned_of_no_quit p0 h0 es⟩

/-- The theorem of C1 at the empty process, for a call that registers, gets SIGINT and returns. -/
theorem waitForQuit_no_spurious_wakeup_witness :
    WF Proc.empty ∧
    (run (call Proc.empty) [.sched, .sched, .deliver SIGINT, .sched]).pc = .returned ∧
    (∃ pre s post c, [Event.sched, .sched, .deliver SIGINT, .sched]
        = pre ++ Event.deliver s :: post ∧
      (s = Interrupt ∨ s = SIGTERM) ∧ (run (call Proc.empty) pre).pc = .atRecv c) :=
  ⟨by decide, by decide,
    (waitForQuit_no_spurious_wakeup Proc.empty (by decide)
      [.sched, .sched, .deliver SIGINT, .sched]).1 (by decide)⟩

/-- **C2** Either quit signal wakes a registered call.  In every state a call
reaches with its channel registered and the receive still to come, the delivery
of SIGINT (`os.Interrupt`) or of SIGTERM leaves a notification in the call's
channel: for a call blocked on the receive the channel then holds exactly the
delivered signal, and in general the earlier pending values followed by the
signal, within the capacity of two.  The receive is enabled, one step of the
goroutine makes the call return, and along every continuation in which the
goroutine is scheduled and no other signal ends the process the call has
returned, exactly once. -/
theorem waitForQuit_returns_on_quit_signal (p0 : Proc) (h0 : WF p0) (es : List Event)
    (c : ChanId) (s : Signal) (hreg : (run (call p0) es).pc = .atRecv c)
    (hs : s = Interrupt ∨ s = SIGTERM) :
    (step (run (call p0) es) = none →
      pending c (exec (run (call p0) es) (.deliver s)).proc = [s]) ∧
    pending c (exec (run (call p0) es) (.deliver s)).proc
      = (pending c (run (call p0) es).proc ++ [s]).take 2 ∧
    pending c (exec (run (call p0) es) (.deliver s)).proc ≠ [] ∧
    (∃ k, step (exec (run (call p0) es) (.deliver s)) = some k ∧ k.pc = .returned) ∧
    (∀ fs, Event.sched ∈ fs →
      (run (call p0) (es ++ Event.deliver s :: fs)).proc.exited = false →
      (run (call p0) (es ++ Event.deliver s :: fs)).pc = .returned ∧
      returnsDuring (call p0) (es ++ Event.deliver s :: fs) = 1) ∧
    (∀ fs, returnsDuring (call p0) (es ++ Event.deliver s :: fs) ≤ 1) := by
  have hq : s ∈ quitSignals := (mem_quitSignals s).mpr hs
  obtain ⟨hc, hr, hp, ha⟩ := reached_atRecv p0 h0 es c hreg
  have hex := exec_deliver_quit p0 _ c s (inv_reach p0 h0 es) hreg hq
  have hpend : pending c (exec (run (call p0) es) (.deliver s)).proc
      = (pending c (run (call p0) es).proc ++ [s]).take 2 := by
    rw [hex]
    show pending c (process s (run (call p0) es).proc) = _
    rw [hc, pending_deliver p0 _ h0 hp hr s, if_pos hq]
  have hne : pending c (exec (run (call p0) es) (.deliver s)).proc ≠ [] := by
    rw [hex]
    show pending c (process s (run (call p0) es).proc) ≠ []
    rw [hc]
    exact pending_deliver_quit_ne p0 _ h0 hp hr s hq
  refine ⟨?_, hpend, hne, ?_, ?_, ?_⟩
  · intro hblocked
    have hb : pending c (run (call p0) es).proc = [] := by
      by_contra hn
      rw [step_ready _ c hreg ha hn] at hblocked
      exact Option.noConfusion hblocked
    rw [hpend, hb]
    rfl
  · refine ⟨_, step_ready (exec (run (call p0) es) (.deliver s)) c ?_ ?_ hne, rfl⟩
    · rw [hex]; exact hreg
    · rw [hex]; exact ha
  · intro fs hfs halive
    exact returns_once p0 h0 es fs c s hreg hq hfs halive
  · intro fs
    exact returnsDuring_le_one _ _

/-- The theorem of C2 at the empty process: a blocked call, then SIGTERM. -/
theorem waitForQuit_returns_on_quit_signal_witness :
    (run (call Proc.empty) [.sched, .sched, .sched]).pc = .atRecv 0 ∧
    pending 0 (exec (run (call Proc.empty) [.sched, .sched, .sched]) (.deliver SIGTERM)).proc
      = [SIGTERM] ∧
    returnsDuring (call Proc.empty)
      ([.sched, .sched, .sched] ++ Event.deliver SIGTERM :: [.sched]) = 1 :=
  ⟨by decide,
    (waitForQuit_returns_on_quit_signal Proc.empty (by decide) [.sched, .sched, .sched] 0
      SIGTERM (by decide) (Or.inr rfl)).1 (by decide),
    ((waitForQuit_returns_on_quit_signal Proc.empty (by decide) [.sched, .sched, .sched] 0
      SIGTERM (by decide) (Or.inr rfl)).2.2.2.2.1 [.sched] (by decide) (by decide)).2⟩

/-- **C3**, as stated, fails.  A call blocked on the receive in a process with
no other registration gets SIGHUP, a signal outside the registered set.  No
channel is registered for it, so its default action ends the process: the call
is not waiting any more, it is gone with the process, without a return. -/
theorem waitForQuit_other_signals_counterexample :
    (run (call Proc.empty) [.sched, .sched]).pc = .atRecv 0 ∧
    step (run (call Proc.empty) [.sched, .sched]) = none ∧
    (SIGHUP ≠ Interrupt ∧ SIGHUP ≠ SIGTERM) ∧
    (exec (run (call Proc.empty) [.sched, .sched]) (.deliver SIGHUP)).pc = .exited ∧
    (exec (run (call Proc.empty) [.sched, .sched]) (.deliver SIGHUP)).proc.exited = true ∧
    (exec (run (call Proc.empty) [.sched, .sched]) (.deliver SIGHUP)).pc ≠ .atRecv 0 := by
  decide

/-- **C3**, amended.  The registered set is exactly SIGINT (`os.Interrupt`) and
SIGTERM.  In every state a call reaches with its channel registered and the
receive still to come, the table entry of the call's channel wants these two
signals and no other, and the delivery of any other signal leaves the call's
channel as it was and does not make the call return.  When the delivery does
not end the process, the call is still before the receive, in a live process,
and a call that was blocked is still blocked; when it does (SIGKILL, or a
signal ending the program by default that no channel is registered for), the
call is gone with the process. -/
theorem waitForQuit_other_signals (p0 : Proc) (h0 : WF p0) (es : List Event)
    (c : ChanId) (s : Signal) (hreg : (run (call p0) es).pc = .atRecv c)
    (hs : s ≠ Interrupt ∧ s ≠ SIGTERM) :
    wanted c (run (call p0) es).proc = [Interrupt, SIGTERM] ∧
    (exec (run (call p0) es) (.deliver s)).proc.chans[c]?
      = (run (call p0) es).proc.chans[c]? ∧
    (exec (run (call p0) es) (.deliver s)).pc ≠ .returned ∧
    (terminates s (run (call p0) es).proc = false →
      (exec (run (call p0) es) (.deliver s)).pc = .atRecv c ∧
      (exec (run (call p0) es) (.deliver s)).proc.exited = false ∧
      (step (run (call p0) es) = none →
        step (exec (run (call p0) es) (.deliver s)) = none)) ∧
    (terminates s (run (call p0) es).proc = true →
      (exec (run (call p0) es) (.deliver s)).pc = .exited ∧
      (exec (run (call p0) es) (.deliver s)).proc.exited = true) := by
  have hq : s ∉ quitSignals := fun h =>
    ((mem_quitSignals s).mp h).elim hs.1 hs.2
  obtain ⟨hc, hr, hp, ha⟩ := reached_atRecv p0 h0 es c hreg
  have hch : (exec (run (call p0) es) (.deliver s)).proc.chans[c]?
      = (run (call p0) es).proc.chans[c]? := by
    rcases exec_deliver_chans (run (call p0) es) s with h | h
    · rw [h]
    · rw [h, hc, chan_deliver p0 _ h0 hp hr s]
      simp [hq]
  refine ⟨?_, hch, ?_, ?_, ?_⟩
  · rw [hc]; exact wanted_of_reg p0 _ h0 hr
  · rcases exec_deliver_pc (run (call p0) es) s with h | h
    · rw [h, hreg]; simp
    · rw [h, hreg]; simp [PC.afterExit]
  · intro ht
    have hex := exec_deliver_live _ s ha ht
    refine ⟨by rw [hex]; exact hreg, by rw [hex]; exact ha, ?_⟩
    intro hblocked
    have hb : pending c (run (call p0) es).proc = [] := by
      by_contra hne
      rw [step_ready _ c hreg ha hne] at hblocked
      exact Option.noConfusion hblocked
    refine step_blocked (exec (run (call p0) es) (.deliver s)) c (by rw [hex]; exact hreg) ?_
    have : pending c (exec (run (call p0) es) (.deliver s)).proc
        = pending c (run (call p0) es).proc := by
      unfold pending
      rw [hch]
    rw [this]; exact hb
  · intro ht
    rw [exec_deliver_term _ s ha ht, hreg]
    exact ⟨rfl, rfl⟩

/-- The theorem of C3 as amended, at the empty process: a blocked call gets
SIGUSR1 (signal 10), which is caught and ignored. -/
theorem waitForQuit_other_signals_witness :
    (run (call Proc.empty) [.sched, .sched]).pc = .atRecv 0 ∧
    (exec (run (call Proc.empty) [.sched, .sched]) (.deliver 10)).proc.chans[0]?
      = (run (call Proc.empty) [.sched, .sched]).proc.chans[0]? ∧
    (exec (run (call Proc.empty) [.sched, .sched]) (.deliver 10)).pc = .atRecv 0 :=
  ⟨by decide,
    (waitForQuit_other_signals Proc.empty (by decide) [.sched, .sched] 0 10
      (by decide) (by decide)).2.1,
    ((waitForQuit_other_signals Proc.empty (by decide) [.sched, .sched] 0 10
      (by decide) (by decide)).2.2.2.1 (by decide)).1⟩

/-- **C4**, as stated, fails.  Three quit signals are delivered between the
`signal.Notify` step and the receive step.  The first two are held pending;
the third, SIGTERM, finds the channel full and is dropped: it is not held
pending in the channel. -/
theorem waitForQuit_registers_before_receive_counterexample :
    (run (call Proc.empty) [.sched]).pc = .atNotify 0 ∧
    (run (call Proc.empty)
      ([.sched] ++ Event.sched :: deliveries [SIGINT, SIGINT, SIGTERM])).pc = .atRecv 0 ∧
    pending 0 (run (call Proc.empty)
      ([.sched] ++ Event.sched :: deliveries [SIGINT, SIGINT, SIGTERM])).proc
      = [SIGINT, SIGINT] ∧
    SIGTERM ∉ pending 0 (run (call Proc.empty)
      ([.sched] ++ Event.sched :: deliveries [SIGINT, SIGINT, SIGTERM])).proc := by
  decide

/-- **C4**, amended.  Registration comes before the receive, so the wake-up is
not missed in between.  The `signal.Notify` step takes the call to the receive
with its channel registered; of the quit signals delivered between that step
and the receive step, the first two are held pending in the call's channel, in
order of arrival (a further one is dropped, the capacity being two); and when
at least one was delivered the receive step does not block: it makes the call
return. -/
theorem waitForQuit_registers_before_receive (p0 : Proc) (h0 : WF p0) (es : List Event)
    (c : ChanId) (hpc : (run (call p0) es).pc = .atNotify c) (ds : List Signal)
    (hq : ∀ s ∈ ds, s = Interrupt ∨ s = SIGTERM) :
    (run (call p0) (es ++ [.sched])).pc = .atRecv c ∧
    wanted c (run (call p0) (es ++ [.sched])).proc = [Interrupt, SIGTERM] ∧
    (run (call p0) (es ++ Event.sched :: deliveries ds)).pc = .atRecv c ∧
    pending c (run (call p0) (es ++ Event.sched :: deliveries ds)).proc = ds.take 2 ∧
    (ds ≠ [] →
      pending c (run (call p0) (es ++ Event.sched :: deliveries ds)).proc ≠ [] ∧
      ∃ k, step (run (call p0) (es ++ Event.sched :: deliveries ds)) = some k ∧
        k.pc = .returned) := by
  have hq' : ∀ s ∈ ds, s ∈ quitSignals := fun s hs => (mem_quitSignals s).mpr (hq s hs)
  obtain ⟨hreg, _⟩ := registered_fresh p0 h0 es c hpc
  obtain ⟨hc, hr, _, _⟩ := reached_atRecv p0 h0 (es ++ [.sched]) c hreg
  obtain ⟨h1, h2⟩ := registered_then_deliveries p0 h0 es c hpc ds hq'
  obtain ⟨_, _, _, ha⟩ := reached_atRecv p0 h0 _ c h1
  refine ⟨hreg, ?_, h1, h2, ?_⟩
  · rw [hc]; exact wanted_of_reg p0 _ h0 hr
  · intro hds
    have hne : pending c (run (call p0) (es ++ Event.sched :: deliveries ds)).proc ≠ [] := by
      rw [h2]
      cases ds with
      | nil => exact absurd rfl hds
      | cons x xs => simp
    exact ⟨hne, _, step_ready _ c h1 ha hne, rfl⟩

/-- The theorem of C4 as amended, at the empty process: SIGINT arrives right
after `signal.Notify`. -/
theorem waitForQuit_registers_before_receive_witness :
    (run (call Proc.empty) [.sched]).pc = .atNotify 0 ∧
    pending 0 (run (call Proc.empty) ([.sched] ++ Event.sched :: deliveries [SIGINT])).proc
      = [SIGINT].take 2 ∧
    ∃ k, step (run (call Proc.empty) ([.sched] ++ Event.sched :: deliveries [SIGINT])) = some k ∧
      k.pc = .returned :=
  ⟨by decide,
    (waitForQuit_registers_before_receive Proc.empty (by decide) [.sched] 0 (by decide)
      [SIGINT] (by decide)).2.2.2.1,
    ((waitForQuit_registers_before_receive Proc.empty (by decide) [.sched] 0 (by decide)
      [SIGINT] (by decide)).2.2.2.2 (by decide)).2⟩

/-- **C7** One notification per call.  When the receive executes with `n ≥ 1`
notifications pending in the call's channel, the call returns and `n - 1` of them
remain pending (the oldest is gone); whatever is delivered or scheduled after
the return, the call stays returned and does not return again. -/
theorem waitForQuit_consumes_one (p0 : Proc) (h0 : WF p0) (es : List Event) (c : ChanId)
    (n : Nat) (hreg : (run (call p0) es).pc = .atRecv c) (hn : 1 ≤ n)
    (hk : (pending c (run (call p0) es).proc).length = n) :
    ∃ k, step (run (call p0) es) = some k ∧ k.pc = .returned ∧
      pending c k.proc = (pending c (run (call p0) es).proc).tail ∧
      (pending c k.proc).length = n - 1 ∧
      ∀ fs, (run k fs).pc = .returned ∧ returnsDuring k fs = 0 := by
  have hne : pending c (run (call p0) es).proc ≠ [] := by
    intro h; rw [h] at hk; simp at hk; omega
  obtain ⟨hc, hr, _, ha⟩ := reached_atRecv p0 h0 es c hreg
  obtain ⟨_, _, ch, hch, _, _, _⟩ := hr
  have hpop : pending c { (run (call p0) es).proc with
      chans := popAt c (run (call p0) es).proc.chans }
      = (pending c (run (call p0) es).proc).tail := by
    rw [← hc] at hch
    have : (popAt c (run (call p0) es).proc.chans)[c]?
        = some { ch with buf := ch.buf.tail } := by
      rw [getElem?_popAt, if_pos rfl, hch]; rfl
    rw [pending_of_get c _ _ this, pending_of_get c _ _ hch]
  refine ⟨_, step_ready _ c hreg ha hne, rfl, hpop, ?_, ?_⟩
  · rw [hpop, List.length_tail, hk]
  · intro fs
    refine ⟨run_returned fs _ rfl, ?_⟩
    rw [returnsDuring_eq]
    simp

/-- The theorem of C7 at the empty process: two notifications pending at the receive. -/
theorem waitForQuit_consumes_one_witness :
    (run (call Proc.empty) [.sched, .sched, .deliver SIGINT, .deliver SIGTERM]).pc = .atRecv 0 ∧
    ∃ k, step (run (call Proc.empty) [.sched, .sched, .deliver SIGINT, .deliver SIGTERM])
        = some k ∧ k.pc = .returned ∧
      pending 0 k.proc
        = (pending 0 (run (call Proc.empty)
            [.sched, .sched, .deliver SIGINT, .deliver SIGTERM]).proc).tail ∧
      (pending 0 k.proc).length = 2 - 1 ∧
      ∀ fs, (run k fs).pc = .returned ∧ returnsDuring k fs = 0 :=
  ⟨by decide,
    waitForQuit_consumes_one Proc.empty (by decide)
      [.sched, .sched, .deliver SIGINT, .deliver SIGTERM] 0 2 (by decide) (by decide)
      (by decide)⟩

/-- **C8** The channel has room for two.  The channel the call registers has
capacity two and is empty at registration; for every sequence of one or two
quit signals delivered after the registration and before the receive, the
pending values of the channel are exactly these signals, in order: none is
lost, and the call is still before its receive. -/
theorem waitForQuit_buffers_two (p0 : Proc) (h0 : WF p0) (es : List Event) (c : ChanId)
    (hpc : (run (call p0) es).pc = .atNotify c) (ds : List Signal)
    (hq : ∀ s ∈ ds, s = Interrupt ∨ s = SIGTERM) (hlen : ds.length = 1 ∨ ds.length = 2) :
    (run (call p0) (es ++ [.sched])).proc.chans[c]? = some ⟨2, []⟩ ∧
    (run (call p0) (es ++ Event.sched :: deliveries ds)).pc = .atRecv c ∧
    pending c (run (call p0) (es ++ Event.sched :: deliveries ds)).proc = ds := by
  have hq' : ∀ s ∈ ds, s ∈ quitSignals := fun s hs => (mem_quitSignals s).mpr (hq s hs)
  obtain ⟨_, hch⟩ := registered_fresh p0 h0 es c hpc
  obtain ⟨h1, h2⟩ := registered_then_deliveries p0 h0 es c hpc ds hq'
  refine ⟨hch, h1, ?_⟩
  rw [h2, List.take_of_length_le]
  omega

/-- The theorem of C8 at the empty process: SIGTERM then SIGINT before the receive. -/
theorem waitForQuit_buffers_two_witness :
    (run (call Proc.empty) [.sched]).pc = .atNotify 0 ∧
    pending 0 (run (call Proc.empty)
      ([.sched] ++ Event.sched :: deliveries [SIGTERM, SIGINT])).proc = [SIGTERM, SIGINT] :=
  ⟨by decide,
    (waitForQuit_buffers_two Proc.empty (by decide) [.sched] 0 (by decide) [SIGTERM, SIGINT]
      (by decide) (Or.inr rfl)).2.2⟩

/-- **C9** No teardown.  When the call has returned, the registration table is
the table the call started with followed by one new entry: the call's own
channel, registered for exactly SIGINT (`os.Interrupt`) and SIGTERM.  That
channel is the one the call allocated, it had no entry before, and the entry
of every other channel is what it was before the call. -/
theorem waitForQuit_no_teardown (p0 : Proc) (h0 : WF p0) (es : List Event)
    (hret : (run (call p0) es).pc = .returned) :
    (run (call p0) es).proc.handlers
      = p0.handlers ++ [(p0.chans.length, [Interrupt, SIGTERM])] ∧
    (∀ pre c, (run (call p0) pre).pc = .atRecv c → c = p0.chans.length) ∧
    p0.chans.length ∉ p0.handlers.map Prod.fst ∧
    (∀ c, c ≠ p0.chans.length → wanted c (run (call p0) es).proc = wanted c p0) ∧
    wanted p0.chans.length (run (call p0) es).proc = [Interrupt, SIGTERM] := by
  obtain ⟨hr, _⟩ := reached_returned p0 h0 es hret
  refine ⟨hr.1, ?_, fresh_of_WF p0 h0, ?_, wanted_of_reg p0 _ h0 hr⟩
  · intro pre c hpc
    exact (reached_atRecv p0 h0 pre c hpc).1
  · intro c hc
    rw [wanted_eq, wanted_eq, hr.1]
    exact lookup_append_other _ _ _ _ hc

/-- The theorem of C9 in a process where channel 0 is already registered for SIGHUP. -/
theorem waitForQuit_no_teardown_witness :
    WF ⟨[⟨1, []⟩], [(0, [SIGHUP])], false⟩ ∧
    (run (call ⟨[⟨1, []⟩], [(0, [SIGHUP])], false⟩)
        [.sched, .sched, .deliver SIGTERM, .sched]).proc.handlers
      = [(0, [SIGHUP])] ++ [(1, [Interrupt, SIGTERM])] :=
  ⟨by decide,
    (waitForQuit_no_teardown ⟨[⟨1, []⟩], [(0, [SIGHUP])], false⟩ (by decide)
      [.sched, .sched, .deliver SIGTERM, .sched] (by decide)).1⟩

/-- **C10** Buffer bound.  From the registration on, through every sequence of
deliveries and steps of the call, before and after its return, the call's
channel holds at most two notifications; a signal delivered while two are
pending is dropped, the channel being left as it was; the delivery of a quit
signal neither moves the call nor ends the process; no delivery changes the
registration table; and no delivery moves the call unless it ends the process. -/
theorem waitForQuit_buffer_bound (p0 : Proc) (h0 : WF p0) (pre : List Event) (c : ChanId)
    (hreg : (run (call p0) pre).pc = .atRecv c) (fs : List Event) (s : Signal) :
    (pending c (run (call p0) (pre ++ fs)).proc).length ≤ 2 ∧
    ((pending c (run (call p0) (pre ++ fs)).proc).length = 2 →
      (exec (run (call p0) (pre ++ fs)) (.deliver s)).proc.chans[c]?
        = (run (call p0) (pre ++ fs)).proc.chans[c]?) ∧
    ((s = Interrupt ∨ s = SIGTERM) →
      (exec (run (call p0) (pre ++ fs)) (.deliver s)).pc = (run (call p0) (pre ++ fs)).pc ∧
      (exec (run (call p0) (pre ++ fs)) (.deliver s)).proc.exited
        = (run (call p0) (pre ++ fs)).proc.exited) ∧
    (exec (run (call p0) (pre ++ fs)) (.deliver s)).proc.handlers
      = (run (call p0) (pre ++ fs)).proc.handlers ∧
    (terminates s (run (call p0) (pre ++ fs)).proc = false →
      (exec (run (call p0) (pre ++ fs)) (.deliver s)).pc
        = (run (call p0) (pre ++ fs)).pc) := by
  obtain ⟨hc, hr, hp⟩ := reg_after p0 h0 pre fs c hreg
  have hd := chan_deliver p0 _ h0 hp hr s
  have hterm := terminates_of_reg p0 _ hr s
  obtain ⟨_, _, ch, hch, hcap, hlen, _⟩ := hr
  rw [← hc] at hch hd
  refine ⟨?_, ?_, ?_, exec_deliver_handlers _ s, ?_⟩
  · rw [pending_of_get c _ ch hch]; exact hlen
  · intro hfull
    rw [pending_of_get c _ ch hch] at hfull
    rcases exec_deliver_chans (run (call p0) (pre ++ fs)) s with h | h
    · rw [h]
    · rw [h, hd, hch]
      by_cases hs : s ∈ quitSignals
      · simp only [hs, if_true, Option.map_some']
        rw [trySend_full s ch (by rw [hcap]; exact hfull)]
      · simp [hs]
  · intro hs
    by_cases hdead : (run (call p0) (pre ++ fs)).proc.exited = true
    · rw [exec_deliver_dead _ s hdead]
      exact ⟨rfl, rfl⟩
    · have ha : (run (call p0) (pre ++ fs)).proc.exited = false := by simpa using hdead
      rw [exec_deliver_live _ s ha (hterm ((mem_quitSignals s).mpr hs))]
      exact ⟨rfl, rfl⟩
  · intro ht
    by_cases hdead : (run (call p0) (pre ++ fs)).proc.exited = true
    · rw [exec_deliver_dead _ s hdead]
    · have ha : (run (call p0) (pre ++ fs)).proc.exited = false := by simpa using hdead
      rw [exec_deliver_live _ s ha ht]

/-- The theorem of C10 at the empty process: a third SIGINT after the call returned
with two notifications pending again. -/
theorem waitForQuit_buffer_bound_witness :
    (run (call Proc.empty) [.sched, .sched]).pc = .atRecv 0 ∧
    (run (call Proc.empty) ([.sched, .sched] ++
      [.deliver SIGINT, .sched, .deliver SIGINT, .deliver SIGTERM])).pc = .returned ∧
    (pending 0 (run (call Proc.empty) ([.sched, .sched] ++
      [.deliver SIGINT, .sched, .deliver SIGINT, .deliver SIGTERM])).proc).length = 2 ∧
    (exec (run (call Proc.empty) ([.sched, .sched] ++
        [.deliver SIGINT, .sched, .deliver SIGINT, .deliver SIGTERM])) (.deliver SIGINT)).proc.chans[0]?
      = (run (call Proc.empty) ([.sched, .sched] ++
        [.deliver SIGINT, .sched, .deliver SIGINT, .deliver SIGTERM])).proc.chans[0]? :=
  ⟨by decide, by decide, by decide,
    (waitForQuit_buffer_bound Proc.empty (by decide) [.sched, .sched] 0 (by decide)
      [.deliver SIGINT, .sched, .deliver SIGINT, .deliver SIGTERM] SIGINT).2.1 (by decide)⟩

/-- **C5** Two calls in sequence.  A first call gets a quit signal after its
registration and returns, exactly once; a second call started afterwards in
the process the first one left gets a quit signal after its own registration
and, no other signal ending the process, returns, exactly once.  The second
call has a channel of its own; when it is registered the entry of the first
call's channel is still in the table, and the delivery puts a notification in
the second call's channel all the same. -/
theorem waitForQuit_twice (p0 : Proc) (h0 : WF p0) (pre1 post1 pre2 post2 : List Event)
    (c1 c2 : ChanId) (s1 s2 : Signal) (p1 : Proc)
    (hreg1 : (run (call p0) pre1).pc = .atRecv c1)
    (hs1 : s1 = Interrupt ∨ s1 = SIGTERM) (hsch1 : Event.sched ∈ post1)
    (hp1 : p1 = (run (call p0) (pre1 ++ Event.deliver s1 :: post1)).proc)
    (hreg2 : (run (call p1) pre2).pc = .atRecv c2)
    (hs2 : s2 = Interrupt ∨ s2 = SIGTERM) (hsch2 : Event.sched ∈ post2)
    (halive : (run (call p1) (pre2 ++ Event.deliver s2 :: post2)).proc.exited = false) :
    (run (call p0) (pre1 ++ Event.deliver s1 :: post1)).pc = .returned ∧
    returnsDuring (call p0) (pre1 ++ Event.deliver s1 :: post1) = 1 ∧
    (run (call p1) (pre2 ++ Event.deliver s2 :: post2)).pc = .returned ∧
    returnsDuring (call p1) (pre2 ++ Event.deliver s2 :: post2) = 1 ∧
    c2 ≠ c1 ∧
    wanted c1 (run (call p1) pre2).proc = [Interrupt, SIGTERM] ∧
    wanted c2 (run (call p1) pre2).proc = [Interrupt, SIGTERM] ∧
    pending c2 (run (call p1) (pre2 ++ [Event.deliver s2])).proc ≠ [] := by
  have hq1 := (mem_quitSignals s1).mpr hs1
  have hq2 := (mem_quitSignals s2).mpr hs2
  obtain ⟨hw1, ⟨hret1, hone1⟩, ⟨hret2, hone2⟩, hne, hwant1, hwant2⟩ :=
    two_calls p0 p1 h0 pre1 post1 pre2 post2 c1 c2 s1 s2 hreg1 hq1 hsch1 hp1 hreg2 hq2
      hsch2 halive
  exact ⟨hret1, hone1, hret2, hone2, hne, hwant1, hwant2,
    (pending_after_quit p1 hw1 pre2 c2 s2 hreg2 hq2).1⟩

/-- The theorem of C5 at the empty process: SIGINT for the first call, SIGTERM for the second. -/
theorem waitForQuit_twice_witness :
    (run (call Proc.empty) ([.sched, .sched] ++ Event.deliver SIGINT :: [.sched])).pc
      = .returned ∧
    (run (call (run (call Proc.empty) ([.sched, .sched] ++ Event.deliver SIGINT :: [.sched])).proc)
      ([.sched, .sched] ++ Event.deliver SIGTERM :: [.sched])).pc = .returned ∧
    returnsDuring
      (call (run (call Proc.empty) ([.sched, .sched] ++ Event.deliver SIGINT :: [.sched])).proc)
      ([.sched, .sched] ++ Event.deliver SIGTERM :: [.sched]) = 1 :=
  ⟨(waitForQuit_twice Proc.empty (by decide) [.sched, .sched] [.sched] [.sched, .sched]
      [.sched] 0 1 SIGINT SIGTERM _ (by decide) (Or.inl rfl) (by decide) rfl (by decide)
      (Or.inr rfl) (by decide) (by decide)).1,
    (waitForQuit_twice Proc.empty (by decide) [.sched, .sched] [.sched] [.sched, .sched]
      [.sched] 0 1 SIGINT SIGTERM _ (by decide) (Or.inl rfl) (by decide) rfl (by decide)
      (Or.inr rfl) (by decide) (by decide)).2.2.1,
    (waitForQuit_twice Proc.empty (by decide) [.sched, .sched] [.sched] [.sched, .sched]
      [.sched] 0 1 SIGINT SIGTERM _ (by decide) (Or.inl rfl) (by decide) rfl (by decide)
      (Or.inr rfl) (by decide) (by decide)).2.2.2.1⟩

/-- **C6**, as stated, fails.  Both deliveries of SIGINT are placed after the
registration of the first call and before its receive.  The first call
returns and leaves one notification in its channel; the second call, started
afterwards, allocates a channel of its own, registers it, and finds it empty:
its receive is blocked and, with the two deliveries spent, it does not return
however often the goroutine is scheduled. -/
theorem waitForQuit_twice_rapid_counterexample :
    (run (call Proc.empty) [.sched, .sched]).pc = .atRecv 0 ∧
    rapidTwice = [.sched, .sched] ++ [.deliver SIGINT, .deliver SIGINT, .sched] ∧
    (run (call Proc.empty) rapidTwice).pc = .returned ∧
    pending 0 (run (call Proc.empty) rapidTwice).proc = [SIGINT] ∧
    (run (call (run (call Proc.empty) rapidTwice).proc) [.sched, .sched]).pc = .atRecv 1 ∧
    (run (call (run (call Proc.empty) rapidTwice).proc) [.sched, .sched]).proc.exited = false ∧
    pending 1 (run (call (run (call Proc.empty) rapidTwice).proc) [.sched, .sched]).proc = [] ∧
    step (run (call (run (call Proc.empty) rapidTwice).proc) [.sched, .sched]) = none ∧
    (∀ n, (run (call (run (call Proc.empty) rapidTwice).proc)
      (List.replicate n .sched)).pc ≠ .returned) := by
  refine ⟨by decide, rfl, by decide, by decide, by decide, by decide, by decide, by decide, ?_⟩
  intro n
  apply not_returned_of_no_quit _ (by decide)
  intro s _ hmem
  have := List.eq_of_mem_replicate hmem
  cases this

/-- **C6**, amended.  A quit signal is sent twice to two calls in sequence, the
first delivery after the registration of the first call and the second after
the registration of the second call (started once the first has returned).
Then both calls find a quit signal pending in their own channel and each
returns, exactly once, whatever else is delivered or scheduled around the two
deliveries short of a signal that ends the process. -/
theorem waitForQuit_twice_rapid (p0 : Proc) (h0 : WF p0) (pre1 post1 pre2 post2 : List Event)
    (c1 c2 : ChanId) (s : Signal) (p1 : Proc)
    (hs : s = Interrupt ∨ s = SIGTERM)
    (hreg1 : (run (call p0) pre1).pc = .atRecv c1) (hsch1 : Event.sched ∈ post1)
    (hp1 : p1 = (run (call p0) (pre1 ++ Event.deliver s :: post1)).proc)
    (hreg2 : (run (call p1) pre2).pc = .atRecv c2) (hsch2 : Event.sched ∈ post2)
    (halive : (run (call p1) (pre2 ++ Event.deliver s :: post2)).proc.exited = false) :
    pending c1 (run (call p0) (pre1 ++ [Event.deliver s])).proc ≠ [] ∧
    (∀ x ∈ pending c1 (run (call p0) (pre1 ++ [Event.deliver s])).proc,
      x = Interrupt ∨ x = SIGTERM) ∧
    (run (call p0) (pre1 ++ Event.deliver s :: post1)).pc = .returned ∧
    returnsDuring (call p0) (pre1 ++ Event.deliver s :: post1) = 1 ∧
    pending c2 (run (call p1) (pre2 ++ [Event.deliver s])).proc ≠ [] ∧
    (∀ x ∈ pending c2 (run (call p1) (pre2 ++ [Event.deliver s])).proc,
      x = Interrupt ∨ x = SIGTERM) ∧
    (run (call p1) (pre2 ++ Event.deliver s :: post2)).pc = .returned ∧
    returnsDuring (call p1) (pre2 ++ Event.deliver s :: post2) = 1 := by
  have hq := (mem_quitSignals s).mpr hs
  obtain ⟨hw1, ⟨hret1, hone1⟩, ⟨hret2, hone2⟩, _, _, _⟩ :=
    two_calls p0 p1 h0 pre1 post1 pre2 post2 c1 c2 s s hreg1 hq hsch1 hp1 hreg2 hq
      hsch2 halive
  obtain ⟨ha1, hb1⟩ := pending_after_quit p0 h0 pre1 c1 s hreg1 hq
  obtain ⟨ha2, hb2⟩ := pending_after_quit p1 hw1 pre2 c2 s hreg2 hq
  exact ⟨ha1, hb1, hret1, hone1, ha2, hb2, hret2, hone2⟩

/-- The theorem of C6 as amended, at the empty process, with SIGINT sent twice. -/
theorem waitForQuit_twice_rapid_witness :
    (run (call Proc.empty) ([.sched, .sched] ++ Event.deliver SIGINT :: [.sched])).pc
      = .returned ∧
    (run (call (run (call Proc.empty) ([.sched, .sched] ++ Event.deliver SIGINT :: [.sched])).proc)
      ([.sched, .sched, .sched] ++ Event.deliver SIGINT :: [.sched])).pc = .returned :=
  ⟨(waitForQuit_twice_rapid Proc.empty (by decide) [.sched, .sched] [.sched]
      [.sched, .sched, .sched] [.sched] 0 1 SIGINT _ (Or.inl rfl) (by decide) (by decide) rfl
      (by decide) (by decide) (by decide)).2.2.1,
    (waitForQuit_twice_rapid Proc.empty (by decide) [.sched, .sched] [.sched]
      [.sched, .sched, .sched] [.sched] 0 1 SIGINT _ (Or.inl rfl) (by decide) (by decide) rfl
      (by decide) (by decide) (by decide)).2.2.2.2.2.2.1⟩

end Signals
